import Mathlib

/-!
Verification of the HR employee management subsystem
(`HR_Employee_Management.py`): the employee record model, the registry,
and the CSV persistence codec.

Modelling conventions used throughout this development:

* Python runtime values stored in an employee's `data` dictionary are
  modelled by the sum type `PyValue` (strings, numbers, booleans, `None`).
  Python `int` and `float` are collapsed into a single exact numeric
  constructor over `ℚ`; every numeric value a Python `float` can hold is a
  finite decimal fraction (floats are dyadic rationals and `repr` prints
  them as finite decimals), captured by the predicate `IsDec`.
* Python dictionaries are ordered association lists with unique keys;
  `alSet` updates an existing binding in place (preserving its position)
  and appends a missing one, exactly like assignment to a `dict` entry.
* The CSV file is modelled at the row level: a list of rows, each row the
  association of column names to cell strings, as produced by
  `csv.DictWriter` and consumed by `csv.DictReader` (the csv module's
  quoting round-trips cell strings verbatim, so the textual layer is not
  modelled).  A missing file is `Option.none`.
* `str(x)` as written into a CSV cell is `render`; numbers are rendered as
  signed decimal digit strings with a decimal point (`renderRat`), the
  form `repr` gives every Python float in this program, and `float(...)` /
  `int(...)` are `parseFloatChars` / `parseIntChars`, covering the plain
  signed decimal forms (scientific notation, `inf`/`nan` and underscore
  separators never arise from the codec and are out of model: such cells
  simply fail to parse).
* `round(x, 2)` is `round2`, rounding half away from zero upwards at two
  decimals; the source relies on the host's default rounding mode and no
  claim exercises a half-way boundary, so the choice is immaterial here.
* `years_of_service()` depends on the wall clock (`date.today()`); salary
  computation takes the resulting number of years as an explicit argument.
* Exceptions escaping an operation are `Except.error`; the loader's
  catch-all handler is the `Except.error` branch of `loadFromFile`.
-/

/-- A Python runtime value as stored in an employee's `data` dict. -/
inductive PyValue where
  | str (s : String)
  | num (q : ℚ)
  | bool (b : Bool)
  | none
  deriving DecidableEq, Repr

/-- Python truthiness of a stored value (`if v:`): a string is truthy iff
nonempty, a number iff nonzero, a boolean iff `True`, `None` never. -/
def PyValue.truthy : PyValue → Bool
  | .str s => if s = "" then false else true
  | .num q => if q = 0 then false else true
  | .bool b => b
  | .none => false

/-- Lookup in an ordered association list (Python `d[k]` / `d.get(k)`):
the value of the first binding of the key. -/
def alGet {α β : Type} [DecidableEq α] : List (α × β) → α → Option β
  | [], _ => Option.none
  | (k', v) :: r, k => if k' = k then some v else alGet r k

/-- Update in an ordered association list (Python `d[k] = v`): replaces an
existing binding in place, else appends a new one. -/
def alSet {α β : Type} [DecidableEq α] : List (α × β) → α → β → List (α × β)
  | [], k, v => [(k, v)]
  | (k', v') :: r, k, v => if k' = k then (k, v) :: r else (k', v') :: alSet r k v

/-- Removal from an ordered association list (Python `del d[k]`). -/
def alRemove {α β : Type} [DecidableEq α] : List (α × β) → α → List (α × β)
  | [], _ => []
  | (k', v') :: r, k => if k' = k then r else (k', v') :: alRemove r k

/-- The concrete class of an employee object, fixed at construction by the
loader's role dispatch or by direct instantiation. -/
inductive Variant where
  | fullTime
  | partTime
  | intern
  | generic
  deriving DecidableEq, Repr

/-- An employee object: its concrete class and its `data` dictionary. -/
structure Emp where
  variant : Variant
  data : List (String × PyValue)
  deriving DecidableEq, Repr

/-- The in-memory registry `HRSystem.employees`: a dict keyed by `emp_id`. -/
abbrev Registry := List (PyValue × Emp)

/-- One CSV data row: column name to cell string, per `csv.DictReader`. -/
abbrev Row := List (String × String)

/-- The common `data` keys set by `Employee.__init__`. -/
def employeeData (empId nm joinDate role : PyValue) : List (String × PyValue) :=
  [("emp_id", empId), ("name", nm), ("join_date", joinDate), ("role", role)]

/-- The base 5% annual bonus stored by `FullTime.__init__`. -/
def bonusPercentInit : ℚ := 5 / 100

/-- `FullTime.__init__`: common fields plus `monthly_salary` and
`bonus_percent`, role tag `"Full-Time"`. -/
def mkFullTime (empId nm joinDate monthlySalary : PyValue) : Emp :=
  ⟨.fullTime, employeeData empId nm joinDate (.str "Full-Time") ++
    [("monthly_salary", monthlySalary), ("bonus_percent", .num bonusPercentInit)]⟩

/-- `PartTime.__init__`: common fields plus `hourly_rate` and
`monthly_hours` (initially 0), role tag `"Part-Time"`. -/
def mkPartTime (empId nm joinDate hourlyRate : PyValue) : Emp :=
  ⟨.partTime, employeeData empId nm joinDate (.str "Part-Time") ++
    [("hourly_rate", hourlyRate), ("monthly_hours", .num 0)]⟩

/-- `Intern.__init__`: common fields plus `stipend` and `completed`
(initially `False`), role tag `"Intern"`. -/
def mkIntern (empId nm joinDate stipend : PyValue) : Emp :=
  ⟨.intern, employeeData empId nm joinDate (.str "Intern") ++
    [("stipend", stipend), ("completed", .bool false)]⟩

/-- `Employee.__init__` for an unrecognized role: only the common fields. -/
def mkEmployee (empId nm joinDate role : PyValue) : Emp :=
  ⟨.generic, employeeData empId nm joinDate role⟩

/-- Errors a salary computation can raise. -/
inductive CalcErr where
  | notImplementedError
  | typeError
  deriving DecidableEq, Repr

/-- `round(x, 2)`: round to two decimal places. -/
def round2 (q : ℚ) : ℚ := (round (q * 100) : ℤ) / 100

/-- The extra bonus rate `min((years // 3) * 0.01, 0.05)` of
`FullTime.calculate_salary`. -/
def extraRate (years : ℕ) : ℚ := min (((years / 3 : ℕ) : ℚ) * (1 / 100)) (5 / 100)

/-- `FullTime.calculate_salary(months, apply_bonus)`; `years` is the value
of `self.years_of_service()`. -/
def fullTimeSalary (d : List (String × PyValue)) (months : ℚ) (applyBonus : Bool)
    (years : ℕ) : Except CalcErr ℚ :=
  match alGet d "monthly_salary" with
  | some (.num s) =>
    let base := s * months
    if applyBonus then
      match alGet d "bonus_percent" with
      | some (.num bp) => .ok (round2 (base + base * (bp + extraRate years)))
      | _ => .error .typeError
    else .ok (round2 base)
  | _ => .error .typeError

/-- `PartTime.calculate_salary(hours_worked, apply_bonus)`: returns the pay
and the updated `data` dict (the method stores `hours_worked` into
`monthly_hours` before returning). -/
def partTimeSalary (d : List (String × PyValue)) (hours : ℚ) (applyBonus : Bool) :
    Except CalcErr (ℚ × List (String × PyValue)) :=
  match alGet d "hourly_rate" with
  | some (.num r) =>
    let base := r * hours
    let bonus := if applyBonus ∧ hours ≥ 80 then base * (2 / 100) else 0
    .ok (round2 (base + bonus), alSet d "monthly_hours" (.num hours))
  | _ => .error .typeError

/-- `Intern.calculate_salary(apply_completion_allowance)`: the completion
test is `self.data.get('completed', False)` under Python truthiness. -/
def internSalary (d : List (String × PyValue)) (applyCompletionAllowance : Bool) :
    Except CalcErr ℚ :=
  match alGet d "stipend" with
  | some (.num s) =>
    let completedVal := (alGet d "completed").getD (.bool false)
    let allowance := if applyCompletionAllowance ∧ completedVal.truthy then (10 / 100 : ℚ) * s else 0
    .ok (round2 (s + allowance))
  | _ => .error .typeError

/-- Polymorphic `calculate_salary` dispatch on the object's class.  The base
`Employee` class raises `NotImplementedError`.  The result pairs the
returned amount with the (possibly mutated) object. -/
def calcSalary (e : Emp) (months hours : ℚ) (applyBonus applyCompletionAllowance : Bool)
    (years : ℕ) : Except CalcErr (ℚ × Emp) :=
  match e.variant with
  | .fullTime => (fullTimeSalary e.data months applyBonus years).map (fun q => (q, e))
  | .partTime => (partTimeSalary e.data hours applyBonus).map (fun p => (p.1, { e with data := p.2 }))
  | .intern => (internSalary e.data applyCompletionAllowance).map (fun q => (q, e))
  | .generic => .error .notImplementedError

/-- The character for a decimal digit. -/
def digitChar (d : ℕ) : Char := Char.ofNat (48 + d)

/-- The numeric value of a digit character. -/
def digitVal (c : Char) : ℕ := c.toNat - 48

/-- Little-endian base-10 digits, with explicit fuel (`fuel ≥ n` suffices). -/
def natDigitsAux : ℕ → ℕ → List ℕ
  | 0, _ => []
  | f + 1, n => if n = 0 then [] else n % 10 :: natDigitsAux f (n / 10)

/-- The decimal digit characters of a natural number, most significant
first (`"0"` for 0), as `str` prints it. -/
def natChars (n : ℕ) : List Char :=
  if n = 0 then ['0'] else ((natDigitsAux n n).reverse.map digitChar)

/-- Value of a most-significant-first digit character string. -/
def natValue (l : List Char) : ℕ := l.foldl (fun a c => 10 * a + digitVal c) 0

/-- The digit characters of `m.natAbs`, left-padded with zeros so that a
decimal point can be placed `e` digits from the right with at least one
digit on each side. -/
def padDigits (m : ℤ) (e : ℕ) : List Char :=
  List.replicate (e + 1 - (natChars m.natAbs).length) '0' ++ natChars m.natAbs

/-- The character rendering of the decimal fraction `m / 10 ^ e`: optional
sign, then the padded digits with the decimal point `e` digits from the
right. -/
def ratCharsCore (m : ℤ) (e : ℕ) : List Char :=
  (if m < 0 then ['-'] else []) ++
    (padDigits m e).take ((padDigits m e).length - e) ++
    '.' :: (padDigits m e).drop ((padDigits m e).length - e)

/-- Digit-string rendering of a rational with denominator dividing a power
of ten, with an explicit decimal point and at least one digit on each side,
the shape `repr` gives every Python float in range.  (A rational that is
not a finite decimal never arises from the program; it renders as `"0"`.) -/
def ratChars (q : ℚ) : List Char :=
  if (q * 10 ^ q.den).den = 1 then ratCharsCore (q * 10 ^ q.den).num q.den else ['0']

/-- `str(x)` for a float value, as written into a CSV cell. -/
def renderRat (q : ℚ) : String := ⟨ratChars q⟩

/-- `str(v)` as `csv.DictWriter` writes a `data` value (`None` becomes the
empty cell). -/
def render : PyValue → String
  | .str s => s
  | .num q => renderRat q
  | .bool b => if b then "True" else "False"
  | .none => ""

/-- Python `int(s)` restricted to plain signed digit strings. -/
def parseDigitsNat (l : List Char) : Option ℕ :=
  if l ≠ [] ∧ l.all Char.isDigit then some (natValue l) else Option.none

/-- Signed integer parsing (Python `int(s)`). -/
def parseIntChars (l : List Char) : Option ℤ :=
  match l with
  | c :: r =>
    if c = '-' then (parseDigitsNat r).map (fun n => -(n : ℤ))
    else if c = '+' then (parseDigitsNat r).map (fun n => (n : ℤ))
    else (parseDigitsNat l).map (fun n => (n : ℤ))
  | [] => Option.none

/-- Unsigned float parsing: digits with at most one decimal point and at
least one digit overall. -/
def parseUnsignedFloat (l : List Char) : Option ℚ :=
  let ip := l.takeWhile (fun c => c ≠ '.')
  match l.dropWhile (fun c => c ≠ '.') with
  | [] => (parseDigitsNat ip).map (fun n => (n : ℚ))
  | _ :: fp =>
    if (ip ++ fp) ≠ [] ∧ (ip ++ fp).all Char.isDigit then
      some ((natValue (ip ++ fp) : ℚ) / 10 ^ fp.length)
    else Option.none

/-- Python `float(s)` on the plain signed decimal forms. -/
def parseFloatChars (l : List Char) : Option ℚ :=
  match l with
  | c :: r =>
    if c = '-' then (parseUnsignedFloat r).map (fun q => -q)
    else if c = '+' then parseUnsignedFloat r
    else parseUnsignedFloat l
  | [] => Option.none

/-- The loader's generic numeric re-coercion of a non-core, nonempty CSV
cell: with a `'.'` try `float`, else try `int`; on failure keep the raw
string. -/
def coerceCell (v : String) : PyValue :=
  if '.' ∈ v.data then
    match parseFloatChars v.data with
    | some q => .num q
    | Option.none => .str v
  else
    match parseIntChars v.data with
    | some n => .num (n : ℚ)
    | Option.none => .str v

/-- The single error class of the loader model: a `float(...)` call in the
role dispatch raised (any raised exception is caught by the caller's
blanket handler, so its identity is irrelevant). -/
inductive LoadErr where
  | badNumber
  deriving DecidableEq, Repr

/-- `float(row.get(k, 0) or 0)` of the role dispatch: a missing column or
empty cell yields 0, an unparseable cell raises. -/
def parseNumCell (c : Option String) : Except LoadErr ℚ :=
  match c with
  | Option.none => .ok 0
  | some s =>
    if s = "" then .ok 0
    else
      match parseFloatChars s.data with
      | some q => .ok q
      | Option.none => .error .badNumber

/-- A raw cell as a constructor argument (`row.get(k)`): `None` if the
column is missing, else the string. -/
def pyOfCell : Option String → PyValue
  | Option.none => .none
  | some s => .str s

/-- The four columns the loader's extra-fields loop skips. -/
def commonKeys : List String := ["emp_id", "name", "join_date", "role"]

/-- One step of the loader's extra-fields loop: skip common columns and
empty cells, otherwise store the re-coerced value (possibly overwriting a
field set by the role dispatch). -/
def extraStep (d : List (String × PyValue)) (cell : String × String) :
    List (String × PyValue) :=
  if cell.1 ∈ commonKeys then d
  else if cell.2 = "" then d
  else alSet d cell.1 (coerceCell cell.2)

/-- Attach the extra-fields pass and the registry key to a freshly
dispatched employee object. -/
def finishRow (row : Row) (empId : PyValue) (e : Emp) : PyValue × Emp :=
  (empId, { e with data := row.foldl extraStep e.data })

/-- Processing of one CSV row by `_load_from_file`: role dispatch, then the
extra-fields loop, yielding the registry key (`row.get('emp_id')`) and the
employee object, or the exception raised by a `float(...)` call. -/
def loadRowE (row : Row) : Except LoadErr (PyValue × Emp) :=
  let roleCell := (alGet row "role").getD ""
  let empId := pyOfCell (alGet row "emp_id")
  let nm := pyOfCell (alGet row "name")
  let jd := pyOfCell (alGet row "join_date")
  if roleCell = "Full-Time" then
    match parseNumCell (alGet row "monthly_salary") with
    | .error err => .error err
    | .ok ms => .ok (finishRow row empId (mkFullTime empId nm jd (.num ms)))
  else if roleCell = "Part-Time" then
    match parseNumCell (alGet row "hourly_rate") with
    | .error err => .error err
    | .ok hr =>
      let e := mkPartTime empId nm jd (.num hr)
      match alGet row "monthly_hours" with
      | some mh =>
        if mh = "" then .ok (finishRow row empId e)
        else
          match parseFloatChars mh.data with
          | some v => .ok (finishRow row empId { e with data := alSet e.data "monthly_hours" (.num v) })
          | Option.none => .error .badNumber
      | Option.none => .ok (finishRow row empId e)
  else if roleCell = "Intern" then
    match parseNumCell (alGet row "stipend") with
    | .error err => .error err
    | .ok st =>
      let e := mkIntern empId nm jd (.num st)
      if alGet row "completed" = some "True" ∨ alGet row "completed" = some "true" ∨
          alGet row "completed" = some "1" then
        .ok (finishRow row empId { e with data := alSet e.data "completed" (.bool true) })
      else .ok (finishRow row empId e)
  else
    .ok (finishRow row empId (mkEmployee empId nm jd (.str roleCell)))

/-- The row loop of `_load_from_file`, inserting each loaded employee into
the registry as it goes; the first raised exception aborts the loop. -/
def loadRowsE : List Row → Registry → Except LoadErr Registry
  | [], reg => .ok reg
  | row :: rest, reg =>
    match loadRowE row with
    | .error err => .error err
    | .ok (k, e) => loadRowsE rest (alSet reg k e)

/-- `_load_from_file`: a missing file leaves the registry as it is; any
exception during the read is caught and the registry reset to empty.  The
function is total: no exception reaches the caller. -/
def loadFromFile (file : Option (List Row)) (current : Registry) : Registry :=
  match file with
  | Option.none => current
  | some rows =>
    match loadRowsE rows current with
    | .ok reg => reg
    | .error _ => []

/-- Byte-wise comparison used by `sorted` on the column names. -/
def strLeChars : List Char → List Char → Bool
  | [], _ => true
  | _ :: _, [] => false
  | a :: as, b :: bs =>
    if a.toNat < b.toNat then true
    else if b.toNat < a.toNat then false
    else strLeChars as bs

/-- String comparison for sorting the CSV header. -/
def strLe (a b : String) : Bool := strLeChars a.data b.data

/-- Insertion into a sorted list of column names. -/
def insertSorted (k : String) : List String → List String
  | [] => [k]
  | x :: xs => if strLe k x then k :: x :: xs else x :: insertSorted k xs

/-- `sorted(...)` on column names. -/
def sortStrings : List String → List String
  | [] => []
  | x :: xs => insertSorted x (sortStrings xs)

/-- The CSV header `save_to_file` writes: the sorted union of all `data`
keys across the registry. -/
def headerKeys (reg : Registry) : List String :=
  sortStrings ((reg.map (fun kv => kv.2.data.map Prod.fst)).flatten.dedup)

/-- The cell `csv.DictWriter` writes for one field of one record: the
rendered value, or the empty cell for a field this record lacks. -/
def cellFor (d : List (String × PyValue)) (k : String) : String :=
  match alGet d k with
  | some v => render v
  | Option.none => ""

/-- The row written for one record under a given header. -/
def rowFor (header : List String) (e : Emp) : Row :=
  header.map (fun k => (k, cellFor e.data k))

/-- The rows `save_to_file` writes: one per record, in registry order,
under the common sorted header. -/
def saveRows (reg : Registry) : List Row :=
  reg.map (fun kv => rowFor (headerKeys reg) kv.2)

/-- `save_to_file` as a file-state transformer: an empty registry returns
without touching the file; otherwise the file is replaced by the freshly
written rows. -/
def saveToFile (reg : Registry) (file : Option (List Row)) : Option (List Row) :=
  if reg = [] then file else some (saveRows reg)

/-- `add_employee`: inserts keyed by the object's own `emp_id`, overwriting
an existing entry.  (A `data` dict with no `emp_id` key would raise
`KeyError` before touching the registry.) -/
def addEmployee (reg : Registry) (e : Emp) : Registry :=
  match alGet e.data "emp_id" with
  | some k => alSet reg k e
  | Option.none => reg

/-- `remove_employee`: removes the binding if present, else a no-op. -/
def removeEmployee (reg : Registry) (k : PyValue) : Registry := alRemove reg k

/-- A registry operation for the key-consistency invariant. -/
inductive HROp where
  | add (e : Emp)
  | remove (k : PyValue)
  | load (file : Option (List Row))

/-- One registry operation applied to the current state. -/
def stepOp (reg : Registry) : HROp → Registry
  | .add e => addEmployee reg e
  | .remove k => removeEmployee reg k
  | .load f => loadFromFile f reg

/-- A sequence of registry operations run from the initial empty registry
of `HRSystem.__init__`. -/
def runOps (ops : List HROp) : Registry := ops.foldl stepOp []

/-- A rational is a finite decimal fraction.  Every Python `int` and
`float` value is one (floats are dyadic). -/
def IsDec (q : ℚ) : Prop := ∃ m : ℤ, ∃ e : ℕ, q = (m : ℚ) / 10 ^ e

/-- A field is present, numeric, and a finite decimal. -/
def NumField (d : List (String × PyValue)) (f : String) : Prop :=
  ∃ q : ℚ, alGet d f = some (.num q) ∧ IsDec q

/-- All numeric values in a `data` dict are finite decimals. -/
def AllDec (d : List (String × PyValue)) : Prop :=
  ∀ fv ∈ d, ∀ q : ℚ, fv.2 = PyValue.num q → IsDec q

/-- The role tags with dedicated loader dispatch. -/
def reservedRoles : List String := ["Full-Time", "Part-Time", "Intern"]

/-- A well-formed registry entry: a string key matching the record's own
`emp_id`, the role tag of its class, the core numeric fields of its class
present as finite decimals, and all numeric values finite decimals.  This
is the shape every record built by the constructors (and every loaded
record) has. -/
def WFEmp (k : PyValue) (e : Emp) : Prop :=
  (∃ s : String, k = .str s ∧ alGet e.data "emp_id" = some (.str s)) ∧
  AllDec e.data ∧
  match e.variant with
  | .fullTime =>
    alGet e.data "role" = some (.str "Full-Time") ∧
      NumField e.data "monthly_salary" ∧ NumField e.data "bonus_percent"
  | .partTime =>
    alGet e.data "role" = some (.str "Part-Time") ∧
      NumField e.data "hourly_rate" ∧ NumField e.data "monthly_hours"
  | .intern =>
    alGet e.data "role" = some (.str "Intern") ∧ NumField e.data "stipend"
  | .generic =>
    ∃ r : String, alGet e.data "role" = some (.str r) ∧ r ∉ reservedRoles

/-- A well-formed registry: distinct keys and well-formed entries. -/
def WFReg (reg : Registry) : Prop :=
  (reg.map Prod.fst).Nodup ∧ ∀ kv ∈ reg, WFEmp kv.1 kv.2

/-- The core numeric fields named by the round-trip contract. -/
def coreFields : List String :=
  ["monthly_salary", "bonus_percent", "hourly_rate", "monthly_hours", "stipend"]

/-- The round-trip relation between a saved record and its reload: same
class, same role tag, and every core numeric field of the saved record
reappears numerically equal up to 2-decimal rounding. -/
def RoundTripRel (e e' : Emp) : Prop :=
  e'.variant = e.variant ∧
  alGet e'.data "role" = alGet e.data "role" ∧
  ∀ f ∈ coreFields, ∀ q : ℚ, alGet e.data f = some (.num q) →
    ∃ q' : ℚ, alGet e'.data f = some (.num q') ∧ round2 q' = round2 q

/-- The invariant of claim C10: every registry key equals the `emp_id`
stored in its record's own `data` dict. -/
def KeyConsistent (reg : Registry) : Prop :=
  ∀ kv ∈ reg, alGet kv.2.data "emp_id" = some kv.1

/-- The demo full-time employee of the module's `__main__` block. -/
def demoFullTime : Emp :=
  mkFullTime (.str "FT001") (.str "Alice kumar") (.str "2018-06-15") (.num 80000)

/-- The demo part-time employee of the module's `__main__` block. -/
def demoPartTime : Emp :=
  mkPartTime (.str "PT101") (.str "Bikash Singh") (.str "2022-01-10") (.num 500)

/-- The demo intern, marked completed by `e3.data['completed'] = True`. -/
def demoInternDone : Emp :=
  { mkIntern (.str "IN900") (.str "Charu Rai") (.str "2024-07-01") (.num 15000) with
    data := alSet (mkIntern (.str "IN900") (.str "Charu Rai") (.str "2024-07-01")
      (.num 15000)).data "completed" (.bool true) }

/-- A freshly constructed intern whose `completed` is still `False`. -/
def demoInternFresh : Emp :=
  mkIntern (.str "IN901") (.str "Esha Rao") (.str "2025-01-01") (.num 15000)

/-- A generic employee record with an unrecognized role. -/
def demoGeneric : Emp :=
  mkEmployee (.str "GE001") (.str "Dina Shah") (.str "2020-01-01") (.str "Contractor")

/-- The demo registry, as populated by the module's `__main__` block. -/
def demoReg : Registry :=
  [(.str "FT001", demoFullTime), (.str "PT101", demoPartTime), (.str "IN900", demoInternDone)]

/-- The demo part-time record after computing pay for 79 hours. -/
def demoPartTime79 : Emp :=
  { demoPartTime with data := alSet demoPartTime.data "monthly_hours" (.num 79) }

/-- The demo part-time record after computing pay for 80 hours. -/
def demoPartTime80 : Emp :=
  { demoPartTime with data := alSet demoPartTime.data "monthly_hours" (.num 80) }

/-- The CSV row a saved, not-completed intern produces: the `completed`
cell holds the string `"False"` and the stipend cell the rendered float. -/
def internRowFalse : Row :=
  [("completed", "False"), ("emp_id", "IN900"), ("join_date", "2024-07-01"),
    ("name", "Charu Rai"), ("role", "Intern"), ("stipend", renderRat (15000 : ℚ))]

/-- A row whose `monthly_salary` cell makes the loader's `float(...)` raise. -/
def badNumberRow : Row :=
  [("role", "Full-Time"), ("emp_id", "X1"), ("monthly_salary", "not a number")]


theorem alGet_alSet_self {α β : Type} [DecidableEq α] (l : List (α × β)) (k : α) (v : β) :
    alGet (alSet l k v) k = some v := by
  induction l with
  | nil => simp [alGet, alSet]
  | cons kv r ih =>
    obtain ⟨k', v'⟩ := kv
    by_cases h : k' = k <;> simp [alGet, alSet, h, ih]

theorem alGet_alSet_ne {α β : Type} [DecidableEq α] (l : List (α × β)) (k k' : α) (v : β)
    (h : k ≠ k') : alGet (alSet l k v) k' = alGet l k' := by
  induction l with
  | nil => simp [alGet, alSet, h]
  | cons kv r ih =>
    obtain ⟨k0, v0⟩ := kv
    by_cases h0 : k0 = k
    · subst h0
      simp [alGet, alSet, h]
    · by_cases h1 : k0 = k'
      · subst h1
        simp [alGet, alSet, h0]
      · simp [alGet, alSet, h0, h1, ih]

theorem alGet_mem {α β : Type} [DecidableEq α] {l : List (α × β)} {k : α} {v : β}
    (h : alGet l k = some v) : (k, v) ∈ l := by
  induction l with
  | nil => simp [alGet] at h
  | cons kv r ih =>
    obtain ⟨k0, v0⟩ := kv
    by_cases h0 : k0 = k
    · subst h0
      simp [alGet] at h
      simp [h]
    · simp [alGet, h0] at h
      exact List.mem_cons_of_mem _ (ih h)

theorem mem_keys_of_alGet {α β : Type} [DecidableEq α] {l : List (α × β)} {k : α} {v : β}
    (h : alGet l k = some v) : k ∈ l.map Prod.fst := by
  have := alGet_mem h
  exact List.mem_map.2 ⟨(k, v), this, rfl⟩

theorem alGet_eq_none {α β : Type} [DecidableEq α] {l : List (α × β)} {k : α}
    (h : k ∉ l.map Prod.fst) : alGet l k = Option.none := by
  induction l with
  | nil => rfl
  | cons kv r ih =>
    obtain ⟨k0, v0⟩ := kv
    have h1 : ¬ k0 = k := fun hh => h (by simp [hh])
    have h2 : k ∉ r.map Prod.fst := fun hh => h (by simp [hh])
    simp [alGet, h1, ih h2]

theorem mem_alSet {α β : Type} [DecidableEq α] {l : List (α × β)} {k : α} {v : β} {kv : α × β}
    (h : kv ∈ alSet l k v) : kv = (k, v) ∨ kv ∈ l := by
  induction l with
  | nil =>
    simp [alSet] at h
    exact Or.inl h
  | cons kv0 r ih =>
    obtain ⟨k0, v0⟩ := kv0
    by_cases h0 : k0 = k
    · simp [alSet, h0] at h
      rcases h with h | h
      · exact Or.inl h
      · exact Or.inr (List.mem_cons_of_mem _ h)
    · simp [alSet, h0] at h
      rcases h with h | h
      · exact Or.inr (by simp [h])
      · rcases ih h with h' | h'
        · exact Or.inl h'
        · exact Or.inr (List.mem_cons_of_mem _ h')

theorem mem_alRemove {α β : Type} [DecidableEq α] {l : List (α × β)} {k : α} {kv : α × β}
    (h : kv ∈ alRemove l k) : kv ∈ l := by
  induction l with
  | nil => simp [alRemove] at h
  | cons kv0 r ih =>
    obtain ⟨k0, v0⟩ := kv0
    by_cases h0 : k0 = k
    · simp [alRemove, h0] at h
      exact List.mem_cons_of_mem _ h
    · simp [alRemove, h0] at h
      rcases h with h | h
      · simp [h]
      · exact List.mem_cons_of_mem _ (ih h)

theorem alSet_eq_append {α β : Type} [DecidableEq α] {l : List (α × β)} {k : α} (v : β)
    (h : k ∉ l.map Prod.fst) : alSet l k v = l ++ [(k, v)] := by
  induction l with
  | nil => rfl
  | cons kv0 r ih =>
    obtain ⟨k0, v0⟩ := kv0
    have h1 : ¬ k0 = k := fun hh => h (by simp [hh])
    have h2 : k ∉ r.map Prod.fst := fun hh => h (by simp [hh])
    simp [alSet, h1, ih h2]

theorem alGet_append_right {α β : Type} [DecidableEq α] {l1 l2 : List (α × β)} {k : α}
    (h : k ∉ l1.map Prod.fst) : alGet (l1 ++ l2) k = alGet l2 k := by
  induction l1 with
  | nil => rfl
  | cons kv0 r ih =>
    obtain ⟨k0, v0⟩ := kv0
    have h1 : ¬ k0 = k := fun hh => h (by simp [hh])
    have h2 : k ∉ r.map Prod.fst := fun hh => h (by simp [hh])
    simp [alGet, h1, ih h2]

theorem alGet_append_left {α β : Type} [DecidableEq α] {l1 l2 : List (α × β)} {k : α}
    (h : k ∈ l1.map Prod.fst) : alGet (l1 ++ l2) k = alGet l1 k := by
  induction l1 with
  | nil => simp at h
  | cons kv0 r ih =>
    obtain ⟨k0, v0⟩ := kv0
    by_cases h0 : k0 = k
    · simp [alGet, h0]
    · rw [List.map_cons] at h
      rcases List.mem_cons.1 h with h1 | h1
      · exact absurd h1 (Ne.symm h0)
      · simp [alGet, h0, ih h1]

theorem alGet_map_pair (g : String → String) (l : List String) (f : String) :
    alGet (l.map fun k => (k, g k)) f = if f ∈ l then some (g f) else Option.none := by
  induction l with
  | nil => rfl
  | cons x xs ih =>
    by_cases h : x = f
    · subst h
      simp [alGet]
    · simp [alGet, h, ih, Ne.symm h]

theorem insertSorted_perm (k : String) (l : List String) :
    List.Perm (insertSorted k l) (k :: l) := by
  induction l with
  | nil => simp [insertSorted]
  | cons x xs ih =>
    cases hc : strLe k x with
    | true => simp [insertSorted, hc]
    | false =>
      simp only [insertSorted, hc, Bool.false_eq_true, if_false]
      exact ((ih.cons x).trans (List.Perm.swap k x xs))

theorem sortStrings_perm (l : List String) : List.Perm (sortStrings l) l := by
  induction l with
  | nil => simp [sortStrings]
  | cons x xs ih => exact (insertSorted_perm x (sortStrings xs)).trans (ih.cons x)

theorem mem_headerKeys {reg : Registry} {kv : PyValue × Emp} {f : String}
    (hkv : kv ∈ reg) (hf : f ∈ kv.2.data.map Prod.fst) : f ∈ headerKeys reg := by
  have : f ∈ (reg.map (fun kv => kv.2.data.map Prod.fst)).flatten :=
    List.mem_flatten.2 ⟨kv.2.data.map Prod.fst, List.mem_map.2 ⟨kv, hkv, rfl⟩, hf⟩
  exact (sortStrings_perm _).mem_iff.2 (List.mem_dedup.2 this)

theorem headerKeys_nodup (reg : Registry) : (headerKeys reg).Nodup :=
  ((sortStrings_perm _).nodup_iff).2 (List.nodup_dedup _)

theorem digitVal_digitChar {d : ℕ} (h : d < 10) : digitVal (digitChar d) = d := by
  interval_cases d <;> decide

theorem isDigit_digitChar {d : ℕ} (h : d < 10) : (digitChar d).isDigit = true := by
  interval_cases d <;> decide

theorem natDigitsAux_lt (fuel : ℕ) : ∀ n : ℕ, ∀ d ∈ natDigitsAux fuel n, d < 10 := by
  induction fuel with
  | zero => intro n d hd; simp [natDigitsAux] at hd
  | succ f ih =>
    intro n d hd
    by_cases h : n = 0
    · simp [natDigitsAux, h] at hd
    · simp only [natDigitsAux, if_neg h] at hd
      rcases List.mem_cons.1 hd with h1 | h1
      · subst h1
        exact Nat.mod_lt _ (by norm_num)
      · exact ih _ _ h1

theorem natDigitsAux_ofDigits (fuel : ℕ) : ∀ n : ℕ, n ≤ fuel →
    Nat.ofDigits 10 (natDigitsAux fuel n) = n := by
  induction fuel with
  | zero =>
    intro n h
    interval_cases n
    simp [natDigitsAux]
  | succ f ih =>
    intro n h
    by_cases h0 : n = 0
    · simp [natDigitsAux, h0]
    · have hdiv : n / 10 < n := Nat.div_lt_self (Nat.pos_of_ne_zero h0) (by norm_num)
      have hle : n / 10 ≤ f := by omega
      simp only [natDigitsAux, if_neg h0]
      rw [Nat.ofDigits_cons, ih _ hle]
      exact_mod_cast Nat.mod_add_div n 10

theorem natValue_append_digit (l : List Char) (c : Char) :
    natValue (l ++ [c]) = 10 * natValue l + digitVal c := by
  simp [natValue, List.foldl_append]

theorem natValue_rev_map (L : List ℕ) (h : ∀ d ∈ L, d < 10) :
    natValue (L.reverse.map digitChar) = Nat.ofDigits 10 L := by
  induction L with
  | nil => simp [natValue, Nat.ofDigits_nil]
  | cons d L ih =>
    have hd : d < 10 := h d (by simp)
    have hL : ∀ x ∈ L, x < 10 := fun x hx => h x (by simp [hx])
    rw [List.reverse_cons, List.map_append, List.map_singleton, natValue_append_digit,
      ih hL, Nat.ofDigits_cons, digitVal_digitChar hd]
    ring

theorem natChars_digits (n : ℕ) : ∀ c ∈ natChars n, c.isDigit = true := by
  intro c hc
  by_cases h : n = 0
  · subst h
    simp [natChars] at hc
    subst hc
    decide
  · simp only [natChars, if_neg h] at hc
    rcases List.mem_map.1 hc with ⟨d, hd, rfl⟩
    exact isDigit_digitChar (natDigitsAux_lt n n d (List.mem_reverse.1 hd))

theorem natValue_natChars (n : ℕ) : natValue (natChars n) = n := by
  by_cases h : n = 0
  · subst h
    decide
  · simp only [natChars, if_neg h]
    rw [natValue_rev_map _ (natDigitsAux_lt n n), natDigitsAux_ofDigits n n le_rfl]

theorem natValue_replicate_zero (k : ℕ) (l : List Char) :
    natValue (List.replicate k '0' ++ l) = natValue l := by
  induction k with
  | zero => simp
  | succ m ih =>
    rw [List.replicate_succ, List.cons_append]
    show List.foldl (fun a c => 10 * a + digitVal c) (10 * 0 + digitVal '0') _ = _
    have : 10 * 0 + digitVal '0' = 0 := by decide
    rw [this]
    exact ih

theorem takeWhile_append_cons {p : Char → Bool} (l1 : List Char) (x : Char) (l2 : List Char)
    (h1 : ∀ c ∈ l1, p c = true) (h2 : p x = false) :
    (l1 ++ x :: l2).takeWhile p = l1 ∧ (l1 ++ x :: l2).dropWhile p = x :: l2 := by
  induction l1 with
  | nil => simp [List.takeWhile, List.dropWhile, h2]
  | cons a l ih =>
    have ha : p a = true := h1 a (by simp)
    have h1' : ∀ c ∈ l, p c = true := fun c hc => h1 c (by simp [hc])
    simp [List.takeWhile_cons, List.dropWhile_cons, ha, (ih h1').1, (ih h1').2]

theorem isDigit_ne_dot {c : Char} (h : c.isDigit = true) : c ≠ '.' := by
  rintro rfl
  exact absurd h (by decide)

theorem padDigits_digits (m : ℤ) (e : ℕ) : ∀ c ∈ padDigits m e, c.isDigit = true := by
  intro c hc
  rcases List.mem_append.1 hc with hc | hc
  · rw [List.eq_of_mem_replicate hc]
    decide
  · exact natChars_digits _ c hc

theorem padDigits_length (m : ℤ) (e : ℕ) : e + 1 ≤ (padDigits m e).length := by
  rw [padDigits, List.length_append, List.length_replicate]
  omega

theorem natValue_padDigits (m : ℤ) (e : ℕ) : natValue (padDigits m e) = m.natAbs := by
  rw [padDigits, natValue_replicate_zero, natValue_natChars]

theorem parseUnsignedFloat_digits_dot (A B : List Char) (hA : ∀ c ∈ A, c.isDigit = true)
    (hB : ∀ c ∈ B, c.isDigit = true) (hne : A ++ B ≠ []) :
    parseUnsignedFloat (A ++ '.' :: B) = some ((natValue (A ++ B) : ℚ) / 10 ^ B.length) := by
  have htw := takeWhile_append_cons (p := fun c => decide (c ≠ '.')) A '.' B
    (fun c hc => decide_eq_true (isDigit_ne_dot (hA c hc))) (by decide)
  have hall : (A ++ B).all Char.isDigit = true := by
    rw [List.all_eq_true]
    intro c hc
    rcases List.mem_append.1 hc with hc | hc
    · exact hA c hc
    · exact hB c hc
  simp only [parseUnsignedFloat, htw.1, htw.2]
  rw [if_pos ⟨hne, hall⟩]

theorem parseFloatChars_digits_dot (A B : List Char) (hA : ∀ c ∈ A, c.isDigit = true)
    (hB : ∀ c ∈ B, c.isDigit = true) (hAne : A ≠ []) :
    parseFloatChars (A ++ '.' :: B) = some ((natValue (A ++ B) : ℚ) / 10 ^ B.length) := by
  cases A with
  | nil => exact absurd rfl hAne
  | cons a A' =>
    have ha := hA a (by simp)
    have ha1 : ¬ a = '-' := by
      rintro rfl
      exact absurd ha (by decide)
    have ha2 : ¬ a = '+' := by
      rintro rfl
      exact absurd ha (by decide)
    simp only [List.cons_append, parseFloatChars, if_neg ha1, if_neg ha2]
    rw [← List.cons_append]
    exact parseUnsignedFloat_digits_dot (a :: A') B hA hB (by simp)

theorem parseFloatChars_neg_digits_dot (A B : List Char) (hA : ∀ c ∈ A, c.isDigit = true)
    (hB : ∀ c ∈ B, c.isDigit = true) (hAne : A ≠ []) :
    parseFloatChars ('-' :: (A ++ '.' :: B)) =
      some (-((natValue (A ++ B) : ℚ) / 10 ^ B.length)) := by
  simp only [parseFloatChars, if_pos rfl]
  rw [parseUnsignedFloat_digits_dot A B hA hB (fun h0 => hAne (List.append_eq_nil.1 h0).1)]
  rfl

theorem parseFloat_ratCharsCore (m : ℤ) (e : ℕ) :
    parseFloatChars (ratCharsCore m e) = some ((m : ℚ) / 10 ^ e) := by
  have hdig := padDigits_digits m e
  have hlen := padDigits_length m e
  have hAdig : ∀ c ∈ (padDigits m e).take ((padDigits m e).length - e), c.isDigit = true :=
    fun c hc => hdig c (List.mem_of_mem_take hc)
  have hBdig : ∀ c ∈ (padDigits m e).drop ((padDigits m e).length - e), c.isDigit = true :=
    fun c hc => hdig c (List.mem_of_mem_drop hc)
  have hAB : (padDigits m e).take ((padDigits m e).length - e) ++
      (padDigits m e).drop ((padDigits m e).length - e) = padDigits m e :=
    List.take_append_drop _ _
  have hBlen : ((padDigits m e).drop ((padDigits m e).length - e)).length = e := by
    rw [List.length_drop]
    omega
  have hAne : (padDigits m e).take ((padDigits m e).length - e) ≠ [] := by
    intro h0
    have := congrArg List.length h0
    rw [List.length_take] at this
    simp at this
    omega
  have hval : natValue ((padDigits m e).take ((padDigits m e).length - e) ++
      (padDigits m e).drop ((padDigits m e).length - e)) = m.natAbs := by
    rw [hAB, natValue_padDigits]
  by_cases hm : m < 0
  · have hr : ratCharsCore m e = '-' :: ((padDigits m e).take ((padDigits m e).length - e) ++
        '.' :: (padDigits m e).drop ((padDigits m e).length - e)) := by
      simp only [ratCharsCore, if_pos hm, List.singleton_append, List.cons_append,
        List.nil_append]
    rw [hr, parseFloatChars_neg_digits_dot _ _ hAdig hBdig hAne, hval, hBlen]
    congr 1
    have h2 : ((m.natAbs : ℕ) : ℚ) = -(m : ℚ) := by
      have h1 : (m.natAbs : ℤ) = -m := by omega
      calc ((m.natAbs : ℕ) : ℚ) = (((m.natAbs : ℤ)) : ℚ) := (Int.cast_natCast _).symm
        _ = ((-m : ℤ) : ℚ) := by rw [h1]
        _ = -(m : ℚ) := by push_cast; ring
    rw [h2]
    ring
  · have hr : ratCharsCore m e = (padDigits m e).take ((padDigits m e).length - e) ++
        '.' :: (padDigits m e).drop ((padDigits m e).length - e) := by
      simp only [ratCharsCore, if_neg hm, List.cons_append, List.nil_append]
    rw [hr, parseFloatChars_digits_dot _ _ hAdig hBdig hAne, hval, hBlen]
    congr 1
    have h2 : ((m.natAbs : ℕ) : ℚ) = (m : ℚ) := by
      have h1 : (m.natAbs : ℤ) = m := by omega
      calc ((m.natAbs : ℕ) : ℚ) = (((m.natAbs : ℤ)) : ℚ) := (Int.cast_natCast _).symm
        _ = (m : ℚ) := by rw [h1]
    rw [h2]

theorem dvd_ten_pow_self {d : ℕ} {e : ℕ} (h : d ∣ 10 ^ e) : d ∣ 10 ^ d := by
  have h10 : (10 : ℕ) = 2 * 5 := by norm_num
  rw [h10, mul_pow] at h
  obtain ⟨d1, d2, hd1, hd2, rfl⟩ := exists_dvd_and_dvd_of_dvd_mul h
  obtain ⟨a, _, rfl⟩ := (Nat.dvd_prime_pow Nat.prime_two).1 hd1
  obtain ⟨b, _, rfl⟩ := (Nat.dvd_prime_pow Nat.prime_five).1 hd2
  have ha : a ≤ 2 ^ a * 5 ^ b := by
    have h1 : a < 2 ^ a := Nat.lt_two_pow a
    have h2 : 2 ^ a ≤ 2 ^ a * 5 ^ b := Nat.le_mul_of_pos_right _ (Nat.pos_pow_of_pos b (by norm_num))
    omega
  have hb : b ≤ 2 ^ a * 5 ^ b := by
    have h1 : b < 5 ^ b :=
      lt_of_lt_of_le (Nat.lt_two_pow b) (Nat.pow_le_pow_left (by norm_num) b)
    have h2 : 5 ^ b ≤ 2 ^ a * 5 ^ b := Nat.le_mul_of_pos_left _ (Nat.pos_pow_of_pos a (by norm_num))
    omega
  rw [h10, mul_pow]
  exact mul_dvd_mul (pow_dvd_pow 2 ha) (pow_dvd_pow 5 hb)

theorem isDec_scaled_den_one {q : ℚ} (h : IsDec q) : (q * 10 ^ q.den).den = 1 := by
  obtain ⟨m, e, hq⟩ := h
  have hdvdZ : (q.den : ℤ) ∣ (10 : ℤ) ^ e := by
    have hcast : ((10 : ℚ)) ^ e = (((10 : ℤ) ^ e : ℤ) : ℚ) := by push_cast; ring
    have hdiv : q = Rat.divInt m ((10 : ℤ) ^ e) := by
      rw [Rat.divInt_eq_div, ← hcast, hq]
    rw [hdiv]
    exact Rat.den_dvd m ((10 : ℤ) ^ e)
  have hdvdN : q.den ∣ 10 ^ e := by
    have : ((10 : ℤ)) ^ e = ((10 ^ e : ℕ) : ℤ) := by push_cast; ring
    rw [this] at hdvdZ
    exact_mod_cast hdvdZ
  obtain ⟨c, hc⟩ := dvd_ten_pow_self hdvdN
  have hden0 : ((q.den : ℚ)) ≠ 0 := by
    exact_mod_cast q.den_nz
  have hnum : (q.num : ℚ) = q * q.den := (div_eq_iff hden0).1 (Rat.num_div_den q)
  have hq10 : q * 10 ^ q.den = ((q.num * c : ℤ) : ℚ) := by
    have h10c : ((10 : ℚ)) ^ q.den = ((q.den : ℚ)) * ((c : ℕ) : ℚ) := by
      exact_mod_cast congrArg (fun n : ℕ => (n : ℚ)) hc
    calc q * 10 ^ q.den = q * (((q.den : ℚ)) * ((c : ℕ) : ℚ)) := by rw [h10c]
      _ = (q * q.den) * ((c : ℕ) : ℚ) := by ring
      _ = (q.num : ℚ) * ((c : ℕ) : ℚ) := by rw [← hnum]
      _ = ((q.num * c : ℤ) : ℚ) := by push_cast; ring
  rw [hq10, Rat.den_intCast]

theorem parse_ratChars {q : ℚ} (h : IsDec q) : parseFloatChars (ratChars q) = some q := by
  have hden1 := isDec_scaled_den_one h
  have hmq : ((q * 10 ^ q.den).num : ℚ) = q * 10 ^ q.den := (Rat.den_eq_one_iff _).1 hden1
  have hne : ((10 : ℚ)) ^ q.den ≠ 0 := by positivity
  simp only [ratChars, if_pos hden1]
  rw [parseFloat_ratCharsCore]
  congr 1
  rw [hmq]
  field_simp

theorem ratChars_mem_dot {q : ℚ} (h : IsDec q) : '.' ∈ ratChars q := by
  simp only [ratChars, if_pos (isDec_scaled_den_one h), ratCharsCore]
  simp

theorem renderRat_ne_empty {q : ℚ} (h : IsDec q) : renderRat q ≠ "" := by
  intro h0
  have hdata : ratChars q = [] := congrArg String.data h0
  exact List.ne_nil_of_mem (ratChars_mem_dot h) hdata

theorem coerceCell_renderRat {q : ℚ} (h : IsDec q) : coerceCell (renderRat q) = .num q := by
  have hdot : '.' ∈ (renderRat q).data := ratChars_mem_dot h
  simp only [coerceCell, if_pos hdot]
  rw [show (renderRat q).data = ratChars q from rfl, parse_ratChars h]

theorem extraStep_alGet_ne (d : List (String × PyValue)) (cell : String × String) (f : String)
    (h : cell.1 ≠ f) : alGet (extraStep d cell) f = alGet d f := by
  unfold extraStep
  split_ifs <;> first
    | rfl
    | exact alGet_alSet_ne _ _ _ _ h

theorem extraStep_alGet_common (d : List (String × PyValue)) (cell : String × String)
    (f : String) (h : f ∈ commonKeys) : alGet (extraStep d cell) f = alGet d f := by
  by_cases hc : cell.1 = f
  · unfold extraStep
    rw [if_pos (hc ▸ h)]
  · exact extraStep_alGet_ne d cell f hc

theorem foldl_extraStep_ne (row : Row) (f : String) (h : f ∉ row.map Prod.fst) :
    ∀ d0, alGet (row.foldl extraStep d0) f = alGet d0 f := by
  induction row with
  | nil => intro d0; rfl
  | cons cell rest ih =>
    intro d0
    have h1 : cell.1 ≠ f := fun hh => h (by simp [hh])
    have h2 : f ∉ rest.map Prod.fst := fun hh => h (by simp [hh])
    rw [List.foldl_cons, ih h2, extraStep_alGet_ne d0 cell f h1]

theorem foldl_extraStep_common (row : Row) (f : String) (h : f ∈ commonKeys) :
    ∀ d0, alGet (row.foldl extraStep d0) f = alGet d0 f := by
  induction row with
  | nil => intro d0; rfl
  | cons cell rest ih =>
    intro d0
    rw [List.foldl_cons, ih, extraStep_alGet_common d0 cell f h]

theorem foldl_extraStep_capture (row : Row) (f : String) (v : String)
    (hnodup : (row.map Prod.fst).Nodup) (hmem : (f, v) ∈ row) (hf : f ∉ commonKeys)
    (hv : v ≠ "") : ∀ d0, alGet (row.foldl extraStep d0) f = some (coerceCell v) := by
  induction row with
  | nil => simp at hmem
  | cons cell rest ih =>
    intro d0
    rw [List.foldl_cons]
    rcases List.mem_cons.1 hmem with h1 | h1
    · have hrest : f ∉ rest.map Prod.fst := by
        have := (List.nodup_cons.1 hnodup).1
        rw [← h1] at this
        exact this
      rw [foldl_extraStep_ne rest f hrest]
      rw [← h1]
      unfold extraStep
      rw [if_neg hf, if_neg hv]
      exact alGet_alSet_self d0 f (coerceCell v)
    · exact ih (List.nodup_cons.1 hnodup).2 h1 _

theorem coreFields_not_common : ∀ f ∈ coreFields, f ∉ commonKeys := by decide

theorem rowFor_keys (header : List String) (e : Emp) :
    (rowFor header e).map Prod.fst = header := by
  induction header with
  | nil => rfl
  | cons x xs ih => simpa [rowFor] using ih

theorem alGet_rowFor (header : List String) (e : Emp) (f : String) :
    alGet (rowFor header e) f = if f ∈ header then some (cellFor e.data f) else Option.none :=
  alGet_map_pair _ header f

theorem alGet_rowFor_of_get {header : List String} {e : Emp} {f : String} {v : PyValue}
    (hsub : ∀ g ∈ e.data.map Prod.fst, g ∈ header) (hf : alGet e.data f = some v) :
    alGet (rowFor header e) f = some (render v) := by
  rw [alGet_rowFor, if_pos (hsub f (mem_keys_of_alGet hf))]
  simp [cellFor, hf]

theorem loaded_core_field {header : List String} (hhn : header.Nodup) {e : Emp}
    (hsub : ∀ g ∈ e.data.map Prod.fst, g ∈ header) (hdec : AllDec e.data)
    {f : String} (hfc : f ∉ commonKeys) {q : ℚ} (hf : alGet e.data f = some (.num q)) :
    ∀ d0, alGet ((rowFor header e).foldl extraStep d0) f = some (.num q) := by
  intro d0
  have hq : IsDec q := hdec (f, .num q) (alGet_mem hf) q rfl
  have hfh : f ∈ header := hsub f (mem_keys_of_alGet hf)
  have hcell : cellFor e.data f = renderRat q := by simp [cellFor, hf, render]
  have hmem : (f, renderRat q) ∈ rowFor header e := by
    rw [rowFor]
    exact List.mem_map.2 ⟨f, hfh, by rw [hcell]⟩
  have hkeys : ((rowFor header e).map Prod.fst).Nodup := by
    rw [rowFor_keys]
    exact hhn
  rw [foldl_extraStep_capture _ f (renderRat q) hkeys hmem hfc (renderRat_ne_empty hq)]
  rw [coerceCell_renderRat hq]

theorem role_after_fold (row : Row) (d0 : List (String × PyValue)) :
    alGet (row.foldl extraStep d0) "role" = alGet d0 "role" :=
  foldl_extraStep_common row "role" (by decide) d0

theorem empid_after_fold (row : Row) (d0 : List (String × PyValue)) :
    alGet (row.foldl extraStep d0) "emp_id" = alGet d0 "emp_id" :=
  foldl_extraStep_common row "emp_id" (by decide) d0

theorem parseNumCell_renderRat {q : ℚ} (h : IsDec q) :
    parseNumCell (some (renderRat q)) = .ok q := by
  simp only [parseNumCell]
  rw [if_neg (renderRat_ne_empty h),
    show (renderRat q).data = ratChars q from rfl, parse_ratChars h]

theorem loadRow_rowFor {header : List String} (hhn : header.Nodup) {k : PyValue} {e : Emp}
    (hwf : WFEmp k e) (hsub : ∀ g ∈ e.data.map Prod.fst, g ∈ header) :
    ∃ e' : Emp, loadRowE (rowFor header e) = .ok (k, e') ∧ RoundTripRel e e' := by
  obtain ⟨⟨s, hk, hid⟩, hdec, hvar⟩ := hwf
  subst hk
  have hidrow : alGet (rowFor header e) "emp_id" = some s :=
    alGet_rowFor_of_get hsub hid
  have hcore : ∀ d0 : List (String × PyValue),
      ∀ f ∈ coreFields, ∀ q : ℚ, alGet e.data f = some (.num q) →
        ∃ q' : ℚ, alGet ((rowFor header e).foldl extraStep d0) f = some (.num q') ∧
          round2 q' = round2 q :=
    fun d0 f hf q hq =>
      ⟨q, loaded_core_field hhn hsub hdec (coreFields_not_common f hf) hq d0, rfl⟩
  cases hv : e.variant with
  | fullTime =>
    rw [hv] at hvar
    obtain ⟨hrole, ⟨ms, hms, hmsdec⟩, _⟩ := hvar
    have hrolerow : alGet (rowFor header e) "role" = some "Full-Time" :=
      alGet_rowFor_of_get hsub hrole
    have hmsrow : alGet (rowFor header e) "monthly_salary" = some (renderRat ms) :=
      alGet_rowFor_of_get hsub hms
    refine ⟨⟨.fullTime, (rowFor header e).foldl extraStep (mkFullTime (.str s)
      (pyOfCell (alGet (rowFor header e) "name"))
      (pyOfCell (alGet (rowFor header e) "join_date")) (.num ms)).data⟩, ?_, ?_, ?_, hcore _⟩
    · simp only [loadRowE, hrolerow, hidrow, hmsrow, Option.getD_some]
      rw [if_pos trivial, parseNumCell_renderRat hmsdec]
      rfl
    · rw [hv]
    · show alGet ((rowFor header e).foldl extraStep _) "role" = alGet e.data "role"
      rw [role_after_fold, hrole]
      rfl
  | partTime =>
    rw [hv] at hvar
    obtain ⟨hrole, ⟨hr, hhr, hhrdec⟩, ⟨mh, hmh, hmhdec⟩⟩ := hvar
    have hrolerow : alGet (rowFor header e) "role" = some "Part-Time" :=
      alGet_rowFor_of_get hsub hrole
    have hhrrow : alGet (rowFor header e) "hourly_rate" = some (renderRat hr) :=
      alGet_rowFor_of_get hsub hhr
    have hmhrow : alGet (rowFor header e) "monthly_hours" = some (renderRat mh) :=
      alGet_rowFor_of_get hsub hmh
    have hparse : parseFloatChars (renderRat mh).data = some mh := parse_ratChars hmhdec
    refine ⟨⟨.partTime, (rowFor header e).foldl extraStep (alSet (mkPartTime (.str s)
      (pyOfCell (alGet (rowFor header e) "name"))
      (pyOfCell (alGet (rowFor header e) "join_date")) (.num hr)).data
        "monthly_hours" (.num mh))⟩, ?_, ?_, ?_, hcore _⟩
    · simp only [loadRowE, hrolerow, hidrow, hhrrow, hmhrow, Option.getD_some]
      rw [if_neg (show ¬("Part-Time" = "Full-Time") from by decide), if_pos trivial,
        parseNumCell_renderRat hhrdec]
      simp only []
      rw [if_neg (renderRat_ne_empty hmhdec), hparse]
      rfl
    · rw [hv]
    · show alGet ((rowFor header e).foldl extraStep _) "role" = alGet e.data "role"
      rw [role_after_fold, alGet_alSet_ne _ _ _ _ (show "monthly_hours" ≠ "role" from by decide),
        hrole]
      rfl
  | intern =>
    rw [hv] at hvar
    obtain ⟨hrole, ⟨st, hst, hstdec⟩⟩ := hvar
    have hrolerow : alGet (rowFor header e) "role" = some "Intern" :=
      alGet_rowFor_of_get hsub hrole
    have hstrow : alGet (rowFor header e) "stipend" = some (renderRat st) :=
      alGet_rowFor_of_get hsub hst
    by_cases hcompl : alGet (rowFor header e) "completed" = some "True" ∨
        alGet (rowFor header e) "completed" = some "true" ∨
        alGet (rowFor header e) "completed" = some "1"
    · refine ⟨⟨.intern, (rowFor header e).foldl extraStep (alSet (mkIntern (.str s)
        (pyOfCell (alGet (rowFor header e) "name"))
        (pyOfCell (alGet (rowFor header e) "join_date")) (.num st)).data
          "completed" (.bool true))⟩, ?_, ?_, ?_, hcore _⟩
      · simp only [loadRowE, hrolerow, hidrow, hstrow, Option.getD_some]
        rw [if_neg (show ¬("Intern" = "Full-Time") from by decide),
          if_neg (show ¬("Intern" = "Part-Time") from by decide), if_pos trivial,
          parseNumCell_renderRat hstdec]
        simp only []
        rw [if_pos hcompl]
        rfl
      · rw [hv]
      · show alGet ((rowFor header e).foldl extraStep _) "role" = alGet e.data "role"
        rw [role_after_fold, alGet_alSet_ne _ _ _ _ (show "completed" ≠ "role" from by decide),
          hrole]
        rfl
    · refine ⟨⟨.intern, (rowFor header e).foldl extraStep (mkIntern (.str s)
        (pyOfCell (alGet (rowFor header e) "name"))
        (pyOfCell (alGet (rowFor header e) "join_date")) (.num st)).data⟩, ?_, ?_, ?_, hcore _⟩
      · simp only [loadRowE, hrolerow, hidrow, hstrow, Option.getD_some]
        rw [if_neg (show ¬("Intern" = "Full-Time") from by decide),
          if_neg (show ¬("Intern" = "Part-Time") from by decide), if_pos trivial,
          parseNumCell_renderRat hstdec]
        simp only []
        rw [if_neg hcompl]
        rfl
      · rw [hv]
      · show alGet ((rowFor header e).foldl extraStep _) "role" = alGet e.data "role"
        rw [role_after_fold, hrole]
        rfl
  | generic =>
    rw [hv] at hvar
    obtain ⟨r, hrole, hnr⟩ := hvar
    have hrolerow : alGet (rowFor header e) "role" = some r :=
      alGet_rowFor_of_get hsub hrole
    have h1 : ¬(r = "Full-Time") := fun hh => hnr (by rw [hh]; decide)
    have h2 : ¬(r = "Part-Time") := fun hh => hnr (by rw [hh]; decide)
    have h3 : ¬(r = "Intern") := fun hh => hnr (by rw [hh]; decide)
    refine ⟨⟨.generic, (rowFor header e).foldl extraStep (mkEmployee (.str s)
      (pyOfCell (alGet (rowFor header e) "name"))
      (pyOfCell (alGet (rowFor header e) "join_date")) (.str r)).data⟩, ?_, ?_, ?_, hcore _⟩
    · simp only [loadRowE, hrolerow, hidrow, Option.getD_some]
      rw [if_neg h1, if_neg h2, if_neg h3]
      rfl
    · rw [hv]
    · show alGet ((rowFor header e).foldl extraStep _) "role" = alGet e.data "role"
      rw [role_after_fold, hrole]
      rfl

theorem loadRows_saveRows_aux (header : List String) (hhn : header.Nodup) :
    ∀ (l : List (PyValue × Emp)) (acc : Registry),
      (∀ kv ∈ l, WFEmp kv.1 kv.2) →
      (∀ kv ∈ l, ∀ g ∈ kv.2.data.map Prod.fst, g ∈ header) →
      (l.map Prod.fst).Nodup →
      (∀ k ∈ l.map Prod.fst, k ∉ acc.map Prod.fst) →
      ∃ reg' : Registry, loadRowsE (l.map (fun kv => rowFor header kv.2)) acc = .ok reg' ∧
        reg'.map Prod.fst = acc.map Prod.fst ++ l.map Prod.fst ∧
        (∀ k, k ∈ acc.map Prod.fst → alGet reg' k = alGet acc k) ∧
        (∀ kv ∈ l, ∃ e', alGet reg' kv.1 = some e' ∧ RoundTripRel kv.2 e') := by
  intro l
  induction l with
  | nil =>
    intro acc _ _ _ _
    exact ⟨acc, rfl, by simp, fun k _ => rfl, by simp⟩
  | cons kv rest ih =>
    intro acc hwf hsubs hnodup hdisj
    obtain ⟨e', hload, hrel⟩ := loadRow_rowFor hhn (hwf kv (by simp)) (hsubs kv (by simp))
    have hnodup' : (kv.1 :: rest.map Prod.fst).Nodup := by simpa using hnodup
    have hknotacc : kv.1 ∉ acc.map Prod.fst := hdisj kv.1 (by simp)
    have hset : alSet acc kv.1 e' = acc ++ [(kv.1, e')] := alSet_eq_append e' hknotacc
    have hdisj' : ∀ k ∈ rest.map Prod.fst, k ∉ (alSet acc kv.1 e').map Prod.fst := by
      intro k hk hmem
      rw [hset, List.map_append] at hmem
      rcases List.mem_append.1 hmem with hmem | hmem
      · exact hdisj k (by simp [hk]) hmem
      · simp at hmem
        exact (List.nodup_cons.1 hnodup').1 (hmem ▸ hk)
    obtain ⟨reg', hrows, hkeys, haccget, hlget⟩ := ih (alSet acc kv.1 e')
      (fun x hx => hwf x (by simp [hx])) (fun x hx => hsubs x (by simp [hx]))
      (List.nodup_cons.1 hnodup').2 hdisj'
    refine ⟨reg', ?_, ?_, ?_, ?_⟩
    · rw [List.map_cons]
      show loadRowsE _ acc = _
      simp only [loadRowsE, hload]
      exact hrows
    · rw [hkeys, hset, List.map_append]
      simp
    · intro k hk
      have hk' : k ∈ (alSet acc kv.1 e').map Prod.fst := by
        rw [hset, List.map_append]
        exact List.mem_append.2 (Or.inl hk)
      rw [haccget k hk', hset, alGet_append_left hk]
    · intro x hx
      rcases List.mem_cons.1 hx with h1 | h1
      · subst h1
        have hx1 : x.1 ∈ (alSet acc x.1 e').map Prod.fst := by
          rw [hset, List.map_append]
          simp
        refine ⟨e', ?_, hrel⟩
        rw [haccget x.1 hx1, alGet_alSet_self]
      · exact hlget x h1

theorem roundTrip_main {reg : Registry} (f0 : Option (List Row)) (hwf : WFReg reg)
    (hne : reg ≠ []) :
    (loadFromFile (saveToFile reg f0) []).map Prod.fst = reg.map Prod.fst ∧
      ∀ kv ∈ reg, ∃ e', alGet (loadFromFile (saveToFile reg f0) []) kv.1 = some e' ∧
        RoundTripRel kv.2 e' := by
  obtain ⟨reg', hrows, hkeys, _, hlget⟩ := loadRows_saveRows_aux (headerKeys reg)
    (headerKeys_nodup reg) reg [] hwf.2
    (fun kv hkv g hg => mem_headerKeys hkv hg) hwf.1 (by simp)
  have hsave : saveToFile reg f0 = some (saveRows reg) := if_neg hne
  have hsr : saveRows reg = reg.map (fun kv => rowFor (headerKeys reg) kv.2) := rfl
  have hlf : loadFromFile (saveToFile reg f0) [] = reg' := by
    rw [hsave]
    show loadFromFile (some (saveRows reg)) [] = reg'
    simp only [loadFromFile, hsr, hrows]
  rw [hlf]
  constructor
  · rw [hkeys]
    simp
  · exact hlget

theorem loadRowE_key {row : Row} {k : PyValue} {e : Emp}
    (h : loadRowE row = .ok (k, e)) : alGet e.data "emp_id" = some k := by
  simp only [loadRowE] at h
  split at h
  · split at h
    · exact absurd h (by simp)
    · simp only [Except.ok.injEq, Prod.mk.injEq, finishRow] at h
      obtain ⟨hk, he⟩ := h
      subst hk
      subst he
      rw [empid_after_fold]
      rfl
  · split at h
    · split at h
      · exact absurd h (by simp)
      · split at h
        · split at h
          · simp only [Except.ok.injEq, Prod.mk.injEq, finishRow] at h
            obtain ⟨hk, he⟩ := h
            subst hk
            subst he
            rw [empid_after_fold]
            rfl
          · split at h
            · simp only [Except.ok.injEq, Prod.mk.injEq, finishRow] at h
              obtain ⟨hk, he⟩ := h
              subst hk
              subst he
              rw [empid_after_fold,
                alGet_alSet_ne _ _ _ _ (show "monthly_hours" ≠ "emp_id" from by decide)]
              rfl
            · exact absurd h (by simp)
        · simp only [Except.ok.injEq, Prod.mk.injEq, finishRow] at h
          obtain ⟨hk, he⟩ := h
          subst hk
          subst he
          rw [empid_after_fold]
          rfl
    · split at h
      · split at h
        · exact absurd h (by simp)
        · split at h
          · simp only [Except.ok.injEq, Prod.mk.injEq, finishRow] at h
            obtain ⟨hk, he⟩ := h
            subst hk
            subst he
            rw [empid_after_fold,
              alGet_alSet_ne _ _ _ _ (show "completed" ≠ "emp_id" from by decide)]
            rfl
          · simp only [Except.ok.injEq, Prod.mk.injEq, finishRow] at h
            obtain ⟨hk, he⟩ := h
            subst hk
            subst he
            rw [empid_after_fold]
            rfl
      · simp only [Except.ok.injEq, Prod.mk.injEq, finishRow] at h
        obtain ⟨hk, he⟩ := h
        subst hk
        subst he
        rw [empid_after_fold]
        rfl

theorem loadRowsE_keyConsistent : ∀ (rows : List Row) (reg reg' : Registry),
    KeyConsistent reg → loadRowsE rows reg = .ok reg' → KeyConsistent reg' := by
  intro rows
  induction rows with
  | nil =>
    intro reg reg' hkc h
    injection h with h
    subst h
    exact hkc
  | cons row rest ih =>
    intro reg reg' hkc h
    simp only [loadRowsE] at h
    cases hrow : loadRowE row with
    | error err =>
      rw [hrow] at h
      exact absurd h (by simp)
    | ok p =>
      obtain ⟨k0, e0⟩ := p
      rw [hrow] at h
      apply ih _ _ _ h
      intro kv hkv
      rcases mem_alSet hkv with h1 | h1
      · rw [h1]
        exact loadRowE_key hrow
      · exact hkc kv h1

theorem keyConsistent_step (reg : Registry) (op : HROp) (h : KeyConsistent reg) :
    KeyConsistent (stepOp reg op) := by
  cases op with
  | add e =>
    show KeyConsistent (addEmployee reg e)
    unfold addEmployee
    cases hid : alGet e.data "emp_id" with
    | none => exact h
    | some k =>
      intro kv hkv
      rcases mem_alSet hkv with h1 | h1
      · rw [h1]
        exact hid
      · exact h kv h1
  | remove k =>
    intro kv hkv
    exact h kv (mem_alRemove hkv)
  | load f =>
    show KeyConsistent (loadFromFile f reg)
    unfold loadFromFile
    cases f with
    | none => exact h
    | some rows =>
      show KeyConsistent (match loadRowsE rows reg with
        | Except.ok r => r
        | Except.error _ => [])
      cases hrows : loadRowsE rows reg with
      | error err =>
        intro kv hkv
        simp at hkv
      | ok reg' =>
        exact loadRowsE_keyConsistent rows reg reg' h hrows

theorem foldl_keyConsistent (ops : List HROp) :
    ∀ reg, KeyConsistent reg → KeyConsistent (ops.foldl stepOp reg) := by
  induction ops with
  | nil => intro reg h; exact h
  | cons op rest ih =>
    intro reg h
    exact ih _ (keyConsistent_step reg op h)

theorem round2_intCast (n : ℤ) : round2 ((n : ℚ)) = ((n : ℤ) : ℚ) := by
  have h : ((n : ℚ)) * 100 = ((n * 100 : ℤ) : ℚ) := by push_cast; ring
  rw [round2, h, round_intCast]
  push_cast
  ring

theorem demoFullTime_wf : WFEmp (.str "FT001") demoFullTime := by
  refine ⟨⟨"FT001", rfl, rfl⟩, ?_, rfl, ⟨80000, rfl, 80000, 0, by norm_num⟩,
    ⟨bonusPercentInit, rfl, 5, 2, by norm_num [bonusPercentInit]⟩⟩
  intro fv hfv q hq
  simp [demoFullTime, mkFullTime, employeeData] at hfv
  rcases hfv with rfl | rfl | rfl | rfl | rfl | rfl
  · exact absurd hq (by simp)
  · exact absurd hq (by simp)
  · exact absurd hq (by simp)
  · exact absurd hq (by simp)
  · injection hq with h
    exact ⟨80000, 0, by rw [← h]; norm_num⟩
  · injection hq with h
    exact ⟨5, 2, by rw [← h]; norm_num [bonusPercentInit]⟩

theorem demoPartTime_wf : WFEmp (.str "PT101") demoPartTime := by
  refine ⟨⟨"PT101", rfl, rfl⟩, ?_, rfl, ⟨500, rfl, 500, 0, by norm_num⟩,
    ⟨0, rfl, 0, 0, by norm_num⟩⟩
  intro fv hfv q hq
  simp [demoPartTime, mkPartTime, employeeData] at hfv
  rcases hfv with rfl | rfl | rfl | rfl | rfl | rfl
  · exact absurd hq (by simp)
  · exact absurd hq (by simp)
  · exact absurd hq (by simp)
  · exact absurd hq (by simp)
  · injection hq with h
    exact ⟨500, 0, by rw [← h]; norm_num⟩
  · injection hq with h
    exact ⟨0, 0, by rw [← h]; norm_num⟩

theorem demoInternDone_wf : WFEmp (.str "IN900") demoInternDone := by
  refine ⟨⟨"IN900", rfl, rfl⟩, ?_, rfl, ⟨15000, rfl, 15000, 0, by norm_num⟩⟩
  intro fv hfv q hq
  simp [demoInternDone, mkIntern, employeeData, alSet] at hfv
  rcases hfv with rfl | rfl | rfl | rfl | rfl | rfl
  · exact absurd hq (by simp)
  · exact absurd hq (by simp)
  · exact absurd hq (by simp)
  · exact absurd hq (by simp)
  · injection hq with h
    exact ⟨15000, 0, by rw [← h]; norm_num⟩
  · exact absurd hq (by simp)

theorem demoReg_wf : WFReg demoReg := by
  constructor
  · decide
  · intro kv hkv
    simp [demoReg] at hkv
    rcases hkv with rfl | rfl | rfl
    · exact demoFullTime_wf
    · exact demoPartTime_wf
    · exact demoInternDone_wf

/-- C1: Round-trip persistence: for every well-formed, non-empty registry,
`save_to_file` followed by `_load_from_file` on the written rows reproduces
the same `emp_id` keys, and every loaded record has the same variant/role
tag and numerically equal core numeric fields (up to 2-decimal rounding) as
the saved record. -/
theorem roundtrip_persistence (reg : Registry) (f0 : Option (List Row)) (hwf : WFReg reg)
    (hne : reg ≠ []) :
    (loadFromFile (saveToFile reg f0) []).map Prod.fst = reg.map Prod.fst ∧
      ∀ kv ∈ reg, ∃ e', alGet (loadFromFile (saveToFile reg f0) []) kv.1 = some e' ∧
        RoundTripRel kv.2 e' :=
  roundTrip_main f0 hwf hne

theorem roundtrip_persistence_witness :
    WFReg demoReg ∧ demoReg ≠ [] ∧
      ((loadFromFile (saveToFile demoReg Option.none) []).map Prod.fst = demoReg.map Prod.fst ∧
        ∀ kv ∈ demoReg, ∃ e', alGet (loadFromFile (saveToFile demoReg Option.none) []) kv.1 =
          some e' ∧ RoundTripRel kv.2 e') :=
  ⟨demoReg_wf, by simp [demoReg],
    roundtrip_persistence demoReg Option.none demoReg_wf (by simp [demoReg])⟩

/-- C2 (code bug, refuting evaluation): loading the saved row of a
NOT-completed intern — `completed` cell `"False"` — does not leave the
`completed` field false: the extra-fields loop overwrites the boolean the
role dispatch computed with the truthy string `"False"`, so
`calculate_salary(apply_completion_allowance=True)` grants the 10%
completion allowance (15000 becomes 16500.0) although the record was saved
with `completed=False`. -/
theorem intern_completed_false_clobbered :
    ∃ e : Emp, loadRowE internRowFalse = .ok (.str "IN900", e) ∧
      alGet e.data "completed" = some (.str "False") ∧
      (PyValue.str "False").truthy = true ∧
      internSalary e.data true = .ok (round2 (15000 + 10 / 100 * 15000)) ∧
      round2 (15000 + 10 / 100 * 15000) = 16500 := by
  have hdec : IsDec (15000 : ℚ) := ⟨15000, 0, by norm_num⟩
  have hrole : alGet internRowFalse "role" = some "Intern" := rfl
  have hid : alGet internRowFalse "emp_id" = some "IN900" := rfl
  have hst : alGet internRowFalse "stipend" = some (renderRat 15000) := rfl
  have hcompl : alGet internRowFalse "completed" = some "False" := rfl
  have hcap : ∀ d0, alGet (internRowFalse.foldl extraStep d0) "completed" =
      some (.str "False") := by
    intro d0
    rw [foldl_extraStep_capture internRowFalse "completed" "False" (by decide)
      (by simp [internRowFalse]) (by decide) (by decide)]
    rfl
  have hstex : ∀ d0, alGet (internRowFalse.foldl extraStep d0) "stipend" =
      some (.num 15000) := by
    intro d0
    rw [foldl_extraStep_capture internRowFalse "stipend" (renderRat 15000) (by decide)
      (by simp [internRowFalse]) (by decide) (renderRat_ne_empty hdec),
      coerceCell_renderRat hdec]
  refine ⟨⟨.intern, internRowFalse.foldl extraStep (mkIntern (.str "IN900") (.str "Charu Rai")
    (.str "2024-07-01") (.num 15000)).data⟩, ?_, hcap _, rfl, ?_, ?_⟩
  · simp only [loadRowE, hrole, hid, hst, hcompl, Option.getD_some]
    rw [if_neg (show ¬("Intern" = "Full-Time") from by decide),
      if_neg (show ¬("Intern" = "Part-Time") from by decide), if_pos trivial,
      parseNumCell_renderRat hdec]
    simp only []
    rw [if_neg (by decide)]
    rfl
  · simp only [internSalary, hstex _, hcap _, Option.getD_some]
    rw [if_pos ⟨trivial, rfl⟩]
  · rw [show ((15000 : ℚ) + 10 / 100 * 15000) = ((16500 : ℤ) : ℚ) from by norm_num,
      round2_intCast]
    norm_num

/-- C3: Load is fail-safe-empty: a missing storage file leaves the (empty)
registry empty and raises nothing; and whenever the row-reading loop raises
any error, `_load_from_file` discards all partially loaded records and
leaves the registry empty.  (Totality of `loadFromFile` is the model of "no
exception reaches the caller".) -/
theorem load_failsafe_empty :
    loadFromFile Option.none [] = [] ∧
    (∀ current : Registry, loadFromFile Option.none current = current) ∧
    (∀ (rows : List Row) (init : Registry) (err : LoadErr),
      loadRowsE rows init = .error err → loadFromFile (some rows) init = []) := by
  refine ⟨rfl, fun _ => rfl, ?_⟩
  intro rows init err h
  show (match loadRowsE rows init with
    | Except.ok r => r
    | Except.error _ => []) = []
  rw [h]

theorem load_failsafe_empty_witness :
    loadRowsE [badNumberRow] [] = .error .badNumber ∧
      loadFromFile (some [badNumberRow]) [] = [] ∧ loadFromFile Option.none [] = [] :=
  ⟨rfl, load_failsafe_empty.2.2 [badNumberRow] [] .badNumber rfl, load_failsafe_empty.1⟩

/-- C4: Saving an empty registry is a no-op on the file state: it neither
creates a missing file nor modifies an existing one. -/
theorem save_empty_noop (reg : Registry) (file : Option (List Row)) (h : reg = []) :
    saveToFile reg file = file := by
  rw [saveToFile, if_pos h]

theorem save_empty_noop_witness :
    saveToFile [] (some [[("k", "v")]]) = some [[("k", "v")]] ∧
      saveToFile [] Option.none = Option.none :=
  ⟨save_empty_noop [] _ rfl, save_empty_noop [] _ rfl⟩

/-- C5: For every FullTime employee and every `(monthly_salary, months)`,
`calculate_salary(months, apply_bonus=False)` returns
`round(monthly_salary * months, 2)` (and does not mutate the record). -/
theorem fulltime_nobonus_salary (e : Emp) (months hours : ℚ) (apc : Bool) (years : ℕ)
    (s : ℚ) (hv : e.variant = .fullTime)
    (h : alGet e.data "monthly_salary" = some (.num s)) :
    calcSalary e months hours false apc years = .ok (round2 (s * months), e) := by
  simp [calcSalary, hv, fullTimeSalary, h, Except.map]

theorem fulltime_nobonus_salary_witness :
    calcSalary demoFullTime 3 0 false false 0 = .ok (round2 ((80000 : ℚ) * 3), demoFullTime) :=
  fulltime_nobonus_salary demoFullTime 3 0 false 0 80000 rfl rfl

/-- C6: The FullTime bonus extra rate `min((years // 3) * 0.01, 0.05)` is
non-decreasing in `years_of_service` and capped at 0.05; it is 0 for years
0..2, 0.01 for years 3..5, and 0.05 for every `years ≥ 15`. -/
theorem extra_rate_monotone_capped :
    (∀ y1 y2 : ℕ, y1 ≤ y2 → extraRate y1 ≤ extraRate y2) ∧
    (∀ y : ℕ, y ≤ 2 → extraRate y = 0) ∧
    (∀ y : ℕ, 3 ≤ y → y ≤ 5 → extraRate y = 1 / 100) ∧
    (∀ y : ℕ, 15 ≤ y → extraRate y = 5 / 100) ∧
    (∀ y : ℕ, extraRate y ≤ 5 / 100) := by
  refine ⟨?_, ?_, ?_, ?_, fun y => min_le_right _ _⟩
  · intro y1 y2 h
    unfold extraRate
    apply min_le_min _ le_rfl
    have hc : ((y1 / 3 : ℕ) : ℚ) ≤ ((y2 / 3 : ℕ) : ℚ) :=
      Nat.cast_le.2 (Nat.div_le_div_right h)
    exact mul_le_mul_of_nonneg_right hc (by norm_num)
  · intro y hy
    calc extraRate y = min 0 (5 / 100 : ℚ) := by
          rw [extraRate, Nat.div_eq_of_lt (by omega : y < 3)]
          norm_num
      _ = 0 := min_eq_left (by norm_num)
  · intro y h3 h5
    have hdiv : y / 3 = 1 := by omega
    calc extraRate y = min (1 / 100 : ℚ) (5 / 100) := by
          rw [extraRate, hdiv]
          norm_num
      _ = 1 / 100 := min_eq_left (by norm_num)
  · intro y h15
    have h5 : 5 ≤ y / 3 := by omega
    rw [extraRate]
    refine min_eq_right ?_
    calc (5 : ℚ) / 100 = ((5 : ℕ) : ℚ) * (1 / 100) := by norm_num
      _ ≤ ((y / 3 : ℕ) : ℚ) * (1 / 100) :=
        mul_le_mul_of_nonneg_right (Nat.cast_le.2 h5) (by norm_num)

theorem extra_rate_monotone_capped_witness :
    extraRate 2 ≤ extraRate 3 ∧ extraRate 2 = 0 ∧ extraRate 4 = 1 / 100 ∧
      extraRate 15 = 5 / 100 ∧ extraRate 20 = 5 / 100 ∧ extraRate 100 ≤ 5 / 100 :=
  ⟨extra_rate_monotone_capped.1 2 3 (by norm_num),
    extra_rate_monotone_capped.2.1 2 (by norm_num),
    extra_rate_monotone_capped.2.2.1 4 (by norm_num) (by norm_num),
    extra_rate_monotone_capped.2.2.2.1 15 (by norm_num),
    extra_rate_monotone_capped.2.2.2.1 20 (by norm_num),
    extra_rate_monotone_capped.2.2.2.2 100⟩

/-- C7: For every PartTime employee, `calculate_salary(hours, apply_bonus)`
returns `round(base + bonus, 2)` with `base = hourly_rate * hours` and a 2%
bonus exactly when the bonus is requested and `hours ≥ 80`, and as a side
effect stores `hours` into the record's `monthly_hours` field. -/
theorem parttime_salary_bonus (e : Emp) (months hours : ℚ) (ab apc : Bool) (years : ℕ)
    (r : ℚ) (hv : e.variant = .partTime)
    (h : alGet e.data "hourly_rate" = some (.num r)) :
    calcSalary e months hours ab apc years =
      .ok (round2 (r * hours + (if ab ∧ hours ≥ 80 then r * hours * (2 / 100) else 0)),
        { e with data := alSet e.data "monthly_hours" (.num hours) }) ∧
      alGet (alSet e.data "monthly_hours" (.num hours)) "monthly_hours" =
        some (.num hours) := by
  constructor
  · simp [calcSalary, hv, partTimeSalary, h, Except.map]
  · exact alGet_alSet_self _ _ _

theorem parttime_salary_bonus_witness :
    calcSalary demoPartTime 0 79 true false 0 = .ok (39500, demoPartTime79) ∧
      calcSalary demoPartTime 0 80 true false 0 = .ok (40800, demoPartTime80) ∧
      alGet demoPartTime80.data "monthly_hours" = some (.num 80) := by
  have h79 := (parttime_salary_bonus demoPartTime 0 79 true false 0 500 rfl rfl).1
  have h80 := (parttime_salary_bonus demoPartTime 0 80 true false 0 500 rfl rfl).1
  have hv79 : round2 ((500 : ℚ) * 79 + (if (true = true) ∧ (79 : ℚ) ≥ 80 then
      (500 : ℚ) * 79 * (2 / 100) else 0)) = 39500 := by
    rw [if_neg (by norm_num)]
    rw [show ((500 : ℚ) * 79 + 0) = ((39500 : ℤ) : ℚ) from by norm_num, round2_intCast]
    norm_num
  have hv80 : round2 ((500 : ℚ) * 80 + (if (true = true) ∧ (80 : ℚ) ≥ 80 then
      (500 : ℚ) * 80 * (2 / 100) else 0)) = 40800 := by
    rw [if_pos (by norm_num)]
    rw [show ((500 : ℚ) * 80 + (500 : ℚ) * 80 * (2 / 100)) = ((40800 : ℤ) : ℚ) from by
      norm_num, round2_intCast]
    norm_num
  rw [hv79] at h79
  rw [hv80] at h80
  exact ⟨h79, h80, (parttime_salary_bonus demoPartTime 0 80 true false 0 500 rfl rfl).2⟩

/-- C8: For every Intern, `calculate_salary(apply_completion_allowance=True)`
with `completed=False` returns the same value as with the flag off, and
with `completed=True` returns `round(1.10 * stipend, 2)`. -/
theorem intern_salary_completion (e : Emp) (months hours : ℚ) (ab : Bool) (years : ℕ)
    (s : ℚ) (hv : e.variant = .intern) (h : alGet e.data "stipend" = some (.num s)) :
    (alGet e.data "completed" = some (.bool false) →
      calcSalary e months hours ab true years = calcSalary e months hours ab false years) ∧
    (alGet e.data "completed" = some (.bool true) →
      calcSalary e months hours ab true years = .ok (round2 (11 / 10 * s), e)) := by
  constructor
  · intro hc
    simp [calcSalary, hv, internSalary, h, hc, PyValue.truthy]
  · intro hc
    simp [calcSalary, hv, internSalary, h, hc, PyValue.truthy, Except.map]
    congr 1
    ring

theorem intern_salary_completion_witness :
    calcSalary demoInternFresh 1 0 false true 0 = calcSalary demoInternFresh 1 0 false false 0 ∧
      calcSalary demoInternDone 1 0 false true 0 = .ok (16500, demoInternDone) := by
  constructor
  · exact (intern_salary_completion demoInternFresh 1 0 false 0 15000 rfl rfl).1 rfl
  · have h := (intern_salary_completion demoInternDone 1 0 false 0 15000 rfl rfl).2 rfl
    rw [show round2 (11 / 10 * (15000 : ℚ)) = 16500 from by
      rw [show (11 / 10 * (15000 : ℚ)) = ((16500 : ℤ) : ℚ) from by norm_num, round2_intCast]
      norm_num] at h
    exact h

/-- C9: Calling `calculate_salary` on a generic/base Employee record always
signals `NotImplementedError` rather than returning a value. -/
theorem generic_salary_unsupported (e : Emp) (months hours : ℚ) (ab apc : Bool) (years : ℕ)
    (hv : e.variant = .generic) :
    calcSalary e months hours ab apc years = .error .notImplementedError := by
  simp [calcSalary, hv]

theorem generic_salary_unsupported_witness :
    calcSalary demoGeneric 1 90 true true 5 = .error .notImplementedError :=
  generic_salary_unsupported demoGeneric 1 90 true true 5 rfl

/-- C10: Registry key consistency: after any sequence of `add_employee`,
`remove_employee` and `_load_from_file` operations starting from the empty
registry, every key `k` of the registry satisfies
`employees[k].data['emp_id'] == k`. -/
theorem registry_key_consistency (ops : List HROp) : KeyConsistent (runOps ops) :=
  foldl_keyConsistent ops [] (fun kv hkv => absurd hkv (List.not_mem_nil kv))
